import Mathlib

/-!
# Verification of the electricity-schedule core (utils.ts and the bot's fingerprint)

Shallow embedding of the schedule logic of the repository:

* instants are whole minutes on a uniform timeline (`Nat`); calendar day `d`
  spans `[1440*d, 1440*(d+1))`, so `1440*d` is midnight of day `d`.  dayjs
  instants are embedded at minute resolution (every instant the code builds
  has second = millisecond = 0, and `diff(_, 'minute')` is exact on them);
  dayjs's `.date()` (day of month) comparison is embedded as a comparison of
  day indices, which agrees with it for instants less than 28 days apart —
  the only comparisons the code performs are between instants of the same or
  adjacent days.
* the regex scans of `utils.ts` are embedded as character-list scanners with
  the same leftmost, non-overlapping match semantics.
-/

namespace LybohoraBot

/-- One outage window, `Range` of `types.ts` (`{ start, end }`); the source
field `end` is a Lean keyword and is called `stop` here. -/
structure Range where
  start : Nat
  stop : Nat
deriving DecidableEq, Repr

/-- Hour-of-day of an instant, dayjs `.hour()`. -/
def hourOf (t : Nat) : Nat := t / 60 % 24

/-- Minute-of-hour of an instant, dayjs `.minute()`. -/
def minuteOf (t : Nat) : Nat := t % 60

/-- Calendar-day index of an instant; embeds dayjs `.date()` comparisons
(day of month) between instants less than a month apart. -/
def dayOf (t : Nat) : Nat := t / 1440

/-- Numeric value of a two-digit string `ab`. -/
def digit2 (a b : Char) : Nat :=
  10 * (a.toNat - '0'.toNat) + (b.toNat - '0'.toNat)

/-- One attempt of the regex `з (\d{2}:\d{2}) до (\d{2}:\d{2})` anchored at the
head of the list: on success returns the parsed `(sh, sm, eh, em)` and the
characters after the match. -/
def matchRangeAt : List Char → Option ((Nat × Nat × Nat × Nat) × List Char)
  | 'з' :: ' ' :: a :: b :: ':' :: c :: d :: ' ' :: 'д' :: 'о' :: ' '
      :: e :: f :: ':' :: g :: k :: rest =>
    if a.isDigit && b.isDigit && c.isDigit && d.isDigit &&
       e.isDigit && f.isDigit && g.isDigit && k.isDigit then
      some ((digit2 a b, digit2 c d, digit2 e f, digit2 g k), rest)
    else none
  | _ => none

/-- All matches of the global regex `/з (\d{2}:\d{2}) до (\d{2}:\d{2})/g`,
left to right, resuming after each match (`regex.exec` loop of
`parseTimeRanges`).  The fuel argument, initially the list length, only
bounds the recursion; it never runs out because each step consumes at least
one character. -/
def scanRangesAux : Nat → List Char → List (Nat × Nat × Nat × Nat)
  | 0, _ => []
  | _, [] => []
  | fuel + 1, c :: cs =>
    match matchRangeAt (c :: cs) with
    | some (m, rest) => m :: scanRangesAux fuel rest
    | none => scanRangesAux fuel cs

/-- All matches of the time-range regex in a text. -/
def scanRanges (l : List Char) : List (Nat × Nat × Nat × Nat) :=
  scanRangesAux l.length l

/-- Build one interval from a match `(sh, sm, eh, em)` for reference day
`base` (utils.ts lines 94-108): `start`/`end` are the base day's midnight
plus the parsed offsets (dayjs `.hour(h).minute(m)` rolls overflowing values
into later days, which minute arithmetic reproduces); an end string `"24:00"`
(exactly `eh = 24, em = 0`, since two-digit decimal strings are unique) is
replaced by the next day's midnight; an end before its start is pushed one
day later. -/
def mkRange (base : Nat) (m : Nat × Nat × Nat × Nat) : Range :=
  let start := 1440 * base + 60 * m.1 + m.2.1
  let end0 := 1440 * base + 60 * m.2.2.1 + m.2.2.2
  let end1 := if m.2.2.1 = 24 ∧ m.2.2.2 = 0 then 1440 * (base + 1) else end0
  let end2 := if end1 < start then end1 + 1440 else end1
  { start := start, stop := end2 }

/-- `parseTimeRanges` of utils.ts: all regex matches, built into intervals
for the reference day `base`, stably sorted ascending by `start`
(`ranges.sort((a, b) => a.start.valueOf() - b.start.valueOf())`). -/
def parseTimeRanges (groupText : String) (base : Nat) : List Range :=
  List.insertionSort (fun a b => a.start ≤ b.start)
    ((scanRanges groupText.data).map (mkRange base))

/-- One attempt of the regex `з (\d{2}:\d{2}) до` anchored at the head:
returns the captured `"HH:MM"`. -/
def matchFirstAt : List Char → Option String
  | 'з' :: ' ' :: a :: b :: ':' :: c :: d :: ' ' :: 'д' :: 'о' :: _ =>
    if a.isDigit && b.isDigit && c.isDigit && d.isDigit then
      some (String.mk [a, b, ':', c, d])
    else none
  | _ => none

/-- Leftmost match of `з (\d{2}:\d{2}) до` in a character list. -/
def firstOutageAux : List Char → Option String
  | [] => none
  | c :: cs =>
    match matchFirstAt (c :: cs) with
    | some s => some s
    | none => firstOutageAux cs

/-- `getFirstOutageTime` of utils.ts: the `"HH:MM"` of the first match of
`/з (\d{2}:\d{2}) до/`, or `none`. -/
def getFirstOutageTime (groupText : String) : Option String :=
  firstOutageAux groupText.data

/-- `ElectricityStatusResult` of types.ts. -/
structure ElectricityStatusResult where
  isOn : Bool
  minutesUntilChange : Option Int
  isTomorrow : Bool
  tomorrowFirstOutage : Option String
  hasTomorrowSchedule : Bool
deriving DecidableEq, Repr

/-- JS truthiness of a `string | null | undefined` value: present and
non-empty. -/
def truthy : Option String → Bool
  | none => false
  | some s => !(s == "")

/-- The `for` loop over today's ranges in `getElectricityStatus`
(utils.ts lines 197-231).  `some (isOn, minutesUntilChange, isTomorrow)` when
a `break` fired, `none` when the loop exhausted the list with
`minutesUntilChange` still `null`. -/
def walkToday (now : Nat) (tomorrowRanges : List Range) :
    List Range → Option (Bool × Int × Bool)
  | [] => none
  | r :: rest =>
    if r.start ≤ now ∧ now < r.stop then
      -- now.isBetween(r.start, r.end, null, '[)')
      let isLastOutageOfDay := rest.isEmpty
      let extendsToMidnight := hourOf r.stop = 0 ∧ dayOf r.stop ≠ dayOf now
      if isLastOutageOfDay ∧ extendsToMidnight ∧ tomorrowRanges ≠ [] then
        match tomorrowRanges.head? with
        | some tomorrowFirst =>
          if hourOf tomorrowFirst.start = 0 ∧ minuteOf tomorrowFirst.start = 0 then
            some (false, (tomorrowFirst.stop : Int) - (now : Int), true)
          else
            some (false, (r.stop : Int) - (now : Int), false)
        | none => some (false, (r.stop : Int) - (now : Int), false)
      else
        some (false, (r.stop : Int) - (now : Int), false)
    else if now < r.start then
      some (true, (r.start : Int) - (now : Int), false)
    else
      walkToday now tomorrowRanges rest

/-- The state computation of `getElectricityStatus` on already-parsed interval
lists (utils.ts lines 185-243): the walk over today's ranges, then the
past-all-outages fallback to tomorrow's first interval. -/
def statusCore (todayRanges tomorrowRanges : List Range) (now : Nat) :
    Bool × Option Int × Bool :=
  match walkToday now tomorrowRanges todayRanges with
  | some (o, m, t) => (o, some m, t)
  | none =>
    match tomorrowRanges.head? with
    | some tomorrowFirst => (true, some ((tomorrowFirst.start : Int) - (now : Int)), true)
    | none => (true, none, false)

/-- `getElectricityStatus` of utils.ts: parse both texts against `now`'s day
and the following day, then run the state computation. -/
def getElectricityStatus (todayGroupText : String)
    (tomorrowGroupText : Option String) (now : Nat) : ElectricityStatusResult :=
  let todayBase := dayOf now
  let tomorrowBase := todayBase + 1
  let todayRanges := parseTimeRanges todayGroupText todayBase
  let tomorrowRanges :=
    if truthy tomorrowGroupText then
      parseTimeRanges (tomorrowGroupText.getD "") tomorrowBase
    else []
  let hasTomorrowSchedule := truthy tomorrowGroupText && !tomorrowRanges.isEmpty
  let tomorrowFirstOutage :=
    if truthy tomorrowGroupText then getFirstOutageTime (tomorrowGroupText.getD "")
    else none
  let core := statusCore todayRanges tomorrowRanges now
  { isOn := core.1
    minutesUntilChange := core.2.1
    isTomorrow := core.2.2
    tomorrowFirstOutage := tomorrowFirstOutage
    hasTomorrowSchedule := hasTomorrowSchedule }

/-- Start offset (minutes past the reference day's midnight) read from a
regex match. -/
def matchStartOff (m : Nat × Nat × Nat × Nat) : Nat := 60 * m.1 + m.2.1

/-- End offset read from a regex match, after the `24:00` sentinel but before
the wraparound correction. -/
def matchEndOff (m : Nat × Nat × Nat × Nat) : Nat :=
  if m.2.2.1 = 24 ∧ m.2.2.2 = 0 then 1440 else 60 * m.2.2.1 + m.2.2.2

/-- Whitespace characters of JS `trim` and `\s` occurring in the data this
code handles (JS also accepts rarer Unicode spaces). -/
def isSpaceJS (c : Char) : Bool := c = ' ' || c = '\t' || c = '\n' || c = '\r'

/-- JS `String.prototype.trim` at character level. -/
def trimChars (l : List Char) : List Char :=
  ((l.dropWhile isSpaceJS).reverse.dropWhile isSpaceJS).reverse

/-- JS `String.prototype.trim`. -/
def trim (s : String) : String := String.mk (trimChars s.data)

/-- JS `String.prototype.startsWith`. -/
def startsWith (s pat : String) : Bool := pat.data.isPrefixOf s.data

/-- `extractGroupText` of utils.ts.  The cheerio document is embedded as the
list of its paragraph (`<p>`) text contents in document order (an empty or
malformed markup yields no paragraphs); `$('p').each` assigns
`groupText = text` for every paragraph whose trimmed text starts with
`"Група {group}."`, so the accumulator keeps the LAST match. -/
def extractGroupText (paragraphs : List String) (group : String) : Option String :=
  paragraphs.foldl
    (fun acc p =>
      let text := trim p
      if startsWith text ("Група " ++ group ++ ".") then some text else acc)
    none

/-- The extraction behaviour the spec describes — the FIRST matching
paragraph — stated for comparison with the source's `extractGroupText`. -/
def extractGroupTextFirst (paragraphs : List String) (group : String) : Option String :=
  (paragraphs.map trim).find? (fun t => startsWith t ("Група " ++ group ++ "."))

/-- Characters a JS regex `.` does not match (line terminators; the rarer
` `/` ` never occur in this data). -/
def isLineTerm (c : Char) : Bool := c = '\n' || c = '\r'

/-- The literal part of the regex `/немає з (.*)/` (8 characters). -/
def timesPat : List Char := "немає з ".data

/-- The regex `/немає з (.*)/` of `parseOutageTimes`: the capture of its
first match — everything after the first occurrence of the literal
`"немає з "` up to the end of that line. -/
def findTimesStr : List Char → Option (List Char)
  | [] => none
  | c :: cs =>
    if timesPat.isPrefixOf (c :: cs) then
      some (((c :: cs).drop 8).takeWhile fun ch => !isLineTerm ch)
    else findTimesStr cs

/-- JS `split(sep)` at character level (the second arm of the `match` is
unreachable: the split of any list is non-empty). -/
def splitOnChar (sep : Char) : List Char → List (List Char)
  | [] => [[]]
  | c :: rest =>
    if c = sep then [] :: splitOnChar sep rest
    else
      match splitOnChar sep rest with
      | [] => [[c]]
      | p :: ps => (c :: p) :: ps

/-- JS `replace(/з\s*/, '')`: delete the first `з` together with the
whitespace run following it. -/
def removeZ : List Char → List Char
  | [] => []
  | c :: cs => if c = 'з' then cs.dropWhile isSpaceJS else c :: removeZ cs

/-- JS `replace(/\.$/, '')`: delete a trailing period. -/
def stripDot (l : List Char) : List Char :=
  if l.getLast? = some '.' then l.dropLast else l

/-- `parseOutageTimes` of utils.ts: capture the text after `"немає з "` on
its line, split on commas, delete the leading connective `з` and a trailing
period from each piece, trim it, and keep the non-empty pieces. -/
def parseOutageTimes (groupText : String) : List String :=
  match findTimesStr groupText.data with
  | none => []
  | some timesStr =>
    (((splitOnChar ',' timesStr).map fun t =>
        trimChars (stripDot (removeZ t))).filter fun t => t.length > 0).map String.mk

/-- JS `String.prototype.includes`. -/
def hasSubAux (pat : List Char) : List Char → Bool
  | [] => pat.isEmpty
  | c :: cs => pat.isPrefixOf (c :: cs) || hasSubAux pat cs

/-- JS `s.includes(pat)`. -/
def containsSub (s pat : String) : Bool := hasSubAux pat.data s.data

/-- The all-day marker phrase tested with `includes`. -/
def allDayMarker : String := "Електроенергія є"

/-- `numberToEmoji` of utils.ts, per character: the digit map sends each of
`'0'`-`'9'` to its keycap emoji (the digit followed by `U+FE0F U+20E3`);
any other character falls through unchanged (`map[ch] ?? ch`). -/
def digitEmoji (c : Char) : List Char :=
  if c.isDigit then [c, '️', '⃣'] else [c]

/-- `numberToEmoji` of utils.ts. -/
def numberToEmoji (numberStr : String) : String :=
  String.mk (numberStr.data.map digitEmoji).flatten

/-- JS `array.join('.')`. -/
def joinDots : List String → String
  | [] => ""
  | [s] => s
  | s :: rest => s ++ "." ++ joinDots rest

/-- `formatGroupEmoji` of utils.ts: `group.split('.').map(numberToEmoji).join('.')`. -/
def formatGroupEmoji (group : String) : String :=
  joinDots ((splitOnChar '.' group.data).map fun l => numberToEmoji (String.mk l))

/-- The `⏱️`-lines of the fingerprint: the `forEach` loop appends one such
line per outage time, in list order. -/
def timeLines : List String → String
  | [] => ""
  | t :: rest => "⏱️ " ++ t ++ "\n" ++ timeLines rest

/-- `buildScheduleContent` of the bot module (and its identical copy in the
test file): the canonical schedule fingerprint compared across fetches.  The
module-level `GROUP` is passed as the explicit `group` argument; a `none` or
empty (falsy) tomorrow text skips the tomorrow section. -/
def buildScheduleContent (todayGroupText : String)
    (tomorrowGroupText : Option String) (group : String) : String :=
  let todayTimes := parseOutageTimes todayGroupText
  let todayPart :=
    if todayTimes.length > 0 then timeLines todayTimes
    else if containsSub todayGroupText allDayMarker then
      "✅ Електроенергія є весь день\n"
    else "*" ++ group ++ "*: дані недоступні\n"
  let tomorrowPart :=
    match tomorrowGroupText with
    | none => ""
    | some tg =>
      if tg = "" then ""
      else
        let tomorrowTimes := parseOutageTimes tg
        if tomorrowTimes.length > 0 then "\n📅 Завтра:\n" ++ timeLines tomorrowTimes
        else if containsSub tg allDayMarker then
          "\n📅 Завтра: ✅ Електроенергія є весь день\n"
        else ""
  todayPart ++ tomorrowPart ++ "\n" ++ formatGroupEmoji group

/-- Outage times contributed by the (possibly absent) tomorrow text: a
`none` or empty (falsy) text contributes none. -/
def tomorrowTimes : Option String → List String
  | none => []
  | some tg => if tg = "" then [] else parseOutageTimes tg

/-- Effective all-day-marker status of the tomorrow text. -/
def tomorrowMarker : Option String → Bool
  | none => false
  | some tg => if tg = "" then false else containsSub tg allDayMarker

/-- Character data of one `⏱️`-line of the fingerprint, without its
terminating newline. -/
def lineify (t : String) : List Char := '⏱' :: '️' :: ' ' :: t.data

/-- The today all-day line, without its newline. -/
def markerLine : List Char := "✅ Електроенергія є весь день".data

/-- The today data-unavailable line, without its newline. -/
def unavailLine (g : String) : List Char :=
  '*' :: (g.data ++ "*: дані недоступні".data)

/-- The lines of the fingerprint's today section. -/
def todayLinesOf (t g : String) : List (List Char) :=
  if (parseOutageTimes t).length > 0 then (parseOutageTimes t).map lineify
  else if containsSub t allDayMarker then [markerLine]
  else [unavailLine g]

/-- The tomorrow section header, without newlines. -/
def hdrChars : List Char := "📅 Завтра:".data

/-- The tomorrow all-day line, without newlines. -/
def tmrMarkerLine : List Char := "📅 Завтра: ✅ Електроенергія є весь день".data

/-- Character data of the group emoji footer. -/
def emojiChars (g : String) : List Char := (formatGroupEmoji g).data

/-- Concatenation of newline-terminated lines. -/
def lineFlat : List (List Char) → List Char
  | [] => []
  | l :: ls => l ++ '\n' :: lineFlat ls

/-- The fingerprint's character data after the blank line that ends the
today section. -/
def restOf (tm : Option String) (g : String) : List Char :=
  if (tomorrowTimes tm).length > 0 then
    hdrChars ++ '\n' :: (lineFlat ((tomorrowTimes tm).map lineify) ++ '\n' :: emojiChars g)
  else if tomorrowMarker tm then tmrMarkerLine ++ '\n' :: '\n' :: emojiChars g
  else emojiChars g

theorem mem_parseTimeRanges {r : Range} {s : String} {base : Nat} :
    r ∈ parseTimeRanges s base ↔ ∃ m ∈ scanRanges s.data, mkRange base m = r := by
  unfold parseTimeRanges
  rw [List.mem_insertionSort, List.mem_map]

theorem mkRange_stop (base : Nat) (m : Nat × Nat × Nat × Nat) :
    (mkRange base m).stop =
      if 1440 * base + matchEndOff m < 1440 * base + matchStartOff m then
        1440 * base + matchEndOff m + 1440
      else 1440 * base + matchEndOff m := by
  simp only [mkRange, matchEndOff, matchStartOff]
  split_ifs <;> omega

theorem mkRange_start (base : Nat) (m : Nat × Nat × Nat × Nat) :
    (mkRange base m).start = 1440 * base + matchStartOff m := by
  simp only [mkRange, matchStartOff]
  omega

/-- C3 counterexample: the text `"з 25:00 до 24:00"` has exactly one regex
match and its literal end time is `24:00`, yet the parsed interval ends at
minute 2880 — two days after the reference day start (day 0), not one —
because the out-of-range start `25:00` (next-day 01:00 after dayjs rollover)
trips the wraparound correction on the already-corrected sentinel end. -/
theorem endOfDaySentinel_cex :
    scanRanges ("з 25:00 до 24:00").data = [(25, 0, 24, 0)] ∧
    parseTimeRanges "з 25:00 до 24:00" 0 = [⟨1500, 2880⟩] ∧
    ¬ (2880 : Nat) = 1440 * (0 + 1) := by decide

/-- C3 (amended): for every schedule text and reference day, a match whose
literal end time is `"24:00"` and whose start offset is at most 24 hours
yields an interval in `parseTimeRanges` whose end is exactly the following
day's midnight — never a 24th hour of the same day. -/
theorem endOfDaySentinel (text : String) (base sh sm : Nat)
    (hm : (sh, sm, 24, 0) ∈ scanRanges text.data)
    (hoff : 60 * sh + sm ≤ 1440) :
    mkRange base (sh, sm, 24, 0) ∈ parseTimeRanges text base ∧
    (mkRange base (sh, sm, 24, 0)).stop = 1440 * (base + 1) := by
  refine ⟨mem_parseTimeRanges.mpr ⟨_, hm, rfl⟩, ?_⟩
  have h := mkRange_stop base (sh, sm, 24, 0)
  simp only [matchEndOff, matchStartOff] at h
  rw [h]
  split_ifs <;> omega

/-- Witness for C3 at the text `"з 23:00 до 24:00"`, reference day 0. -/
theorem endOfDaySentinel_witness :
    mkRange 0 (23, 0, 24, 0) ∈ parseTimeRanges "з 23:00 до 24:00" 0 ∧
    (mkRange 0 (23, 0, 24, 0)).stop = 1440 * (0 + 1) :=
  endOfDaySentinel "з 23:00 до 24:00" 0 23 0 (by decide) (by decide)

/-- C6 counterexample: the text `"з 10:00 до 10:00"` parses to the single
interval `[600, 600]`, whose end does not exceed its start — the wraparound
correction only fires for an end strictly before the start, so a match with
equal start and end clock times yields an empty interval. -/
theorem intervalInvariant_cex :
    parseTimeRanges "з 10:00 до 10:00" 0 = [⟨600, 600⟩] ∧
    ¬ (600 : Nat) < 600 := by decide

/-- C6 (amended): for every schedule text and reference day, every interval
returned by `parseTimeRanges` satisfies `end > start` after the
24:00-sentinel and midnight-wraparound corrections, provided each match's
start offset differs from its effective end offset and exceeds it by less
than 24 hours (valid clock times with distinct start and end always satisfy
this). -/
theorem intervalInvariant (text : String) (base : Nat)
    (hok : ∀ m ∈ scanRanges text.data,
      matchStartOff m ≠ matchEndOff m ∧ matchStartOff m < matchEndOff m + 1440) :
    ∀ r ∈ parseTimeRanges text base, r.start < r.stop := by
  intro r hr
  obtain ⟨m, hm, hmk⟩ := mem_parseTimeRanges.mp hr
  obtain ⟨hne, hlt⟩ := hok m hm
  rw [← hmk, mkRange_start, mkRange_stop]
  split <;> omega

/-- Witness for C6 at a realistic schedule text and its first parsed
interval. -/
theorem intervalInvariant_witness :
    (⟨330, 750⟩ : Range).start < (⟨330, 750⟩ : Range).stop :=
  intervalInvariant
    "Група 1.2. Електроенергії немає з 05:30 до 12:30, з 16:00 до 21:00, з 23:00 до 24:00."
    0 (by decide) ⟨330, 750⟩ (by decide)

/-- C9: the literal scenario of the spec — for the today text
`"Група 1.2. Електроенергії немає з 05:30 до 12:30, з 16:00 до 21:00, з 23:00 до 24:00."`
with no tomorrow text, evaluation at 06:00 of the reference day (minute 360
of day 0) yields `isOn = false` and `minutesUntilChange = 390`, and
evaluation at 22:00 (minute 1320) yields `isOn = true` and
`minutesUntilChange = 60`. -/
theorem literalScenario :
    (getElectricityStatus
      "Група 1.2. Електроенергії немає з 05:30 до 12:30, з 16:00 до 21:00, з 23:00 до 24:00."
      none 360).isOn = false ∧
    (getElectricityStatus
      "Група 1.2. Електроенергії немає з 05:30 до 12:30, з 16:00 до 21:00, з 23:00 до 24:00."
      none 360).minutesUntilChange = some 390 ∧
    (getElectricityStatus
      "Група 1.2. Електроенергії немає з 05:30 до 12:30, з 16:00 до 21:00, з 23:00 до 24:00."
      none 1320).isOn = true ∧
    (getElectricityStatus
      "Група 1.2. Електроенергії немає з 05:30 до 12:30, з 16:00 до 21:00, з 23:00 до 24:00."
      none 1320).minutesUntilChange = some 60 := by decide

theorem walkToday_skip (now : Nat) (tmr : List Range) (init rest : List Range)
    (h : ∀ r ∈ init, r.start ≤ r.stop ∧ r.stop ≤ now) :
    walkToday now tmr (init ++ rest) = walkToday now tmr rest := by
  induction init with
  | nil => rfl
  | cons r init' ih =>
    have hr := h r (List.mem_cons_self ..)
    have h' : ∀ x ∈ init', x.start ≤ x.stop ∧ x.stop ≤ now :=
      fun x hx => h x (List.mem_cons_of_mem _ hx)
    have hc1 : ¬(r.start ≤ now ∧ now < r.stop) := by omega
    have hc2 : ¬(now < r.start) := by omega
    rw [List.cons_append]
    conv_lhs => unfold walkToday
    rw [if_neg hc1, if_neg hc2]
    exact ih h'

theorem parseTimeRanges_stop_lb {r : Range} {s : String} {b : Nat}
    (hr : r ∈ parseTimeRanges s b) : 1440 * b ≤ r.stop := by
  obtain ⟨m, _, hmk⟩ := mem_parseTimeRanges.mp hr
  rw [← hmk, mkRange_stop]
  split <;> omega

/-- C1: midnight continuation — a sorted, non-overlapping today list whose
last interval ends at the following midnight, a tomorrow list whose first
interval starts exactly there, and a `now` inside that last interval give
`isOn = false`, `isTomorrow = true`, and minutes until tomorrow's first
interval's end. -/
theorem midnightContinuation (init : List Range) (rlast tf : Range)
    (tmrRest : List Range) (now : Nat)
    (hsorted : ∀ r ∈ init, r.start ≤ r.stop ∧ r.stop ≤ rlast.start)
    (hin : rlast.start ≤ now ∧ now < rlast.stop)
    (hstop : rlast.stop = 1440 * (dayOf now + 1))
    (htf : tf.start = 1440 * (dayOf now + 1)) :
    statusCore (init ++ [rlast]) (tf :: tmrRest) now =
      (false, some ((tf.stop : Int) - (now : Int)), true) := by
  have hskip : ∀ r ∈ init, r.start ≤ r.stop ∧ r.stop ≤ now :=
    fun r hr => ⟨(hsorted r hr).1, le_trans (hsorted r hr).2 hin.1⟩
  have hext : hourOf rlast.stop = 0 ∧ dayOf rlast.stop ≠ dayOf now := by
    unfold hourOf dayOf at *
    omega
  have htf0 : hourOf tf.start = 0 ∧ minuteOf tf.start = 0 := by
    unfold hourOf minuteOf dayOf at *
    omega
  unfold statusCore
  rw [walkToday_skip now _ init [rlast] hskip]
  conv_lhs => unfold walkToday
  rw [if_pos hin, if_pos ⟨rfl, hext, by simp⟩]
  simp only [List.head?_cons, if_pos htf0]

/-- Witness for C1: today `[10:00-11:00, 22:00-24:00]`, tomorrow's first
interval `00:00-02:00`, `now = 23:00` — 180 minutes to tomorrow 02:00. -/
theorem midnightContinuation_witness :
    statusCore [⟨600, 660⟩, ⟨1320, 1440⟩] [⟨1440, 1560⟩] 1380 =
      (false, some 180, true) :=
  midnightContinuation [⟨600, 660⟩] ⟨1320, 1440⟩ ⟨1440, 1560⟩ [] 1380
    (by decide) (by decide) (by decide) (by decide)

/-- C4: midnight non-continuation — same setup as C1 but tomorrow's first
interval does not start at `00:00` (hour 0, minute 0): `isOn = false`,
`isTomorrow = false`, and minutes until today's last interval's end
(midnight). -/
theorem midnightNonContinuation (init : List Range) (rlast tf : Range)
    (tmrRest : List Range) (now : Nat)
    (hsorted : ∀ r ∈ init, r.start ≤ r.stop ∧ r.stop ≤ rlast.start)
    (hin : rlast.start ≤ now ∧ now < rlast.stop)
    (hstop : rlast.stop = 1440 * (dayOf now + 1))
    (htf : ¬(hourOf tf.start = 0 ∧ minuteOf tf.start = 0)) :
    statusCore (init ++ [rlast]) (tf :: tmrRest) now =
      (false, some ((rlast.stop : Int) - (now : Int)), false) := by
  have hskip : ∀ r ∈ init, r.start ≤ r.stop ∧ r.stop ≤ now :=
    fun r hr => ⟨(hsorted r hr).1, le_trans (hsorted r hr).2 hin.1⟩
  have hext : hourOf rlast.stop = 0 ∧ dayOf rlast.stop ≠ dayOf now := by
    unfold hourOf dayOf at *
    omega
  unfold statusCore
  rw [walkToday_skip now _ init [rlast] hskip]
  conv_lhs => unfold walkToday
  rw [if_pos hin, if_pos ⟨rfl, hext, by simp⟩]
  simp only [List.head?_cons, if_neg htf]

/-- Witness for C4: today ends `22:00-24:00`, tomorrow starts `06:00-10:00`,
`now = 23:00` — 60 minutes to midnight, not a tomorrow transition. -/
theorem midnightNonContinuation_witness :
    statusCore [⟨480, 720⟩, ⟨1320, 1440⟩] [⟨1800, 2040⟩] 1380 =
      (false, some 60, false) :=
  midnightNonContinuation [⟨480, 720⟩] ⟨1320, 1440⟩ ⟨1800, 2040⟩ [] 1380
    (by decide) (by decide) (by decide) (by decide)

/-- C5: no-tomorrow fallback — with no tomorrow schedule text and `now` at or
after the end of every (well-formed) today interval, `getElectricityStatus`
reports `isOn = true` and `minutesUntilChange = none`. -/
theorem noTomorrowFallback (todayText : String) (now : Nat)
    (h : ∀ r ∈ parseTimeRanges todayText (dayOf now),
      r.start ≤ r.stop ∧ r.stop ≤ now) :
    (getElectricityStatus todayText none now).isOn = true ∧
    (getElectricityStatus todayText none now).minutesUntilChange = none := by
  have hw : walkToday now [] (parseTimeRanges todayText (dayOf now)) = none := by
    have := walkToday_skip now [] (parseTimeRanges todayText (dayOf now)) [] h
    simpa using this
  have hcore : statusCore (parseTimeRanges todayText (dayOf now)) [] now =
      (true, none, false) := by
    unfold statusCore
    rw [hw]
    rfl
  exact ⟨congrArg (·.1) hcore, congrArg (·.2.1) hcore⟩

/-- Witness for C5: a single morning outage, evaluated in the evening. -/
theorem noTomorrowFallback_witness :
    (getElectricityStatus "Група 1.2. Електроенергії немає з 02:00 до 05:30."
      none 1000).isOn = true ∧
    (getElectricityStatus "Група 1.2. Електроенергії немає з 02:00 до 05:30."
      none 1000).minutesUntilChange = none :=
  noTomorrowFallback "Група 1.2. Електроенергії немає з 02:00 до 05:30." 1000
    (by decide)

theorem walkToday_false_nonneg (now : Nat) (tmr : List Range)
    (htmr : ∀ r ∈ tmr, (now : Int) < (r.stop : Int)) :
    ∀ L : List Range, ∀ m : Int, ∀ t : Bool,
      walkToday now tmr L = some (false, m, t) → 0 ≤ m := by
  intro L
  induction L with
  | nil => intro m t hw; simp [walkToday] at hw
  | cons r rest ih =>
    intro m t hw
    unfold walkToday at hw
    by_cases h1 : r.start ≤ now ∧ now < r.stop
    · rw [if_pos h1] at hw
      by_cases h2 : (rest.isEmpty : Prop) ∧
          (hourOf r.stop = 0 ∧ dayOf r.stop ≠ dayOf now) ∧ tmr ≠ []
      · rw [if_pos h2] at hw
        cases tmr with
        | nil =>
          simp only [List.head?_nil, Option.some.injEq, Prod.mk.injEq] at hw
          omega
        | cons tf ttl =>
          have := htmr tf (List.mem_cons_self ..)
          simp only [List.head?_cons] at hw
          by_cases h3 : hourOf tf.start = 0 ∧ minuteOf tf.start = 0
          · rw [if_pos h3] at hw
            simp only [Option.some.injEq, Prod.mk.injEq] at hw
            omega
          · rw [if_neg h3] at hw
            simp only [Option.some.injEq, Prod.mk.injEq] at hw
            omega
      · rw [if_neg h2] at hw
        simp only [Option.some.injEq, Prod.mk.injEq] at hw
        omega
    · rw [if_neg h1] at hw
      by_cases h4 : now < r.start
      · rw [if_pos h4] at hw
        simp only [Option.some.injEq, Prod.mk.injEq] at hw
        exact absurd hw.1 (by simp)
      · rw [if_neg h4] at hw
        exact ih m t hw

theorem statusCore_off (todayR tmrR : List Range) (now : Nat)
    (htmr : ∀ r ∈ tmrR, (now : Int) < (r.stop : Int))
    (h : (statusCore todayR tmrR now).1 = false) :
    ∃ m : Int, (statusCore todayR tmrR now).2.1 = some m ∧ 0 ≤ m := by
  unfold statusCore at h ⊢
  cases hw : walkToday now tmrR todayR with
  | some res =>
    obtain ⟨o, m, t⟩ := res
    rw [hw] at h
    cases o with
    | false => exact ⟨m, rfl, walkToday_false_nonneg now tmrR htmr todayR m t hw⟩
    | true => exact Bool.noConfusion h
  | none =>
    rw [hw] at h
    cases htl : tmrR.head? with
    | none => rw [htl] at h; exact Bool.noConfusion h
    | some tf => rw [htl] at h; exact Bool.noConfusion h

/-- C10: whenever `getElectricityStatus` reports `isOn = false`, it also
reports a non-null, non-negative `minutesUntilChange` — for every pair of
schedule texts and every `now`. -/
theorem offImpliesKnownChange (todayText : String) (tomorrowText : Option String)
    (now : Nat) (h : (getElectricityStatus todayText tomorrowText now).isOn = false) :
    ∃ m : Int,
      (getElectricityStatus todayText tomorrowText now).minutesUntilChange = some m ∧
      0 ≤ m := by
  have htmr : ∀ r ∈ (if truthy tomorrowText then
        parseTimeRanges (tomorrowText.getD "") (dayOf now + 1) else []),
      (now : Int) < (r.stop : Int) := by
    split_ifs
    · intro r hr
      have := parseTimeRanges_stop_lb hr
      have hnow : now < 1440 * (dayOf now + 1) := by unfold dayOf; omega
      omega
    · intro r hr
      simp at hr
  exact statusCore_off (parseTimeRanges todayText (dayOf now)) _ now htmr h

/-- Witness for C10 at the literal spec scenario inside the first outage. -/
theorem offImpliesKnownChange_witness :
    ∃ m : Int,
      (getElectricityStatus
        "Група 1.2. Електроенергії немає з 05:30 до 12:30, з 16:00 до 21:00, з 23:00 до 24:00."
        none 360).minutesUntilChange = some m ∧ 0 ≤ m :=
  offImpliesKnownChange
    "Група 1.2. Електроенергії немає з 05:30 до 12:30, з 16:00 до 21:00, з 23:00 до 24:00."
    none 360 (by decide)

/-- C2 counterexample: with two matching paragraphs, the source returns the
second (last) match, not the first one the claim requires. -/
theorem extractGroupText_cex :
    extractGroupText ["Група 1.2. Перший.", "Група 1.2. Другий."] "1.2" =
      some "Група 1.2. Другий." ∧
    extractGroupTextFirst ["Група 1.2. Перший.", "Група 1.2. Другий."] "1.2" =
      some "Група 1.2. Перший." ∧
    ¬ extractGroupText ["Група 1.2. Перший.", "Група 1.2. Другий."] "1.2" =
      extractGroupTextFirst ["Група 1.2. Перший.", "Група 1.2. Другий."] "1.2" := by
  decide

theorem foldl_lastMatch (pred : String → Bool) (ps : List String)
    (acc : Option String) :
    ps.foldl (fun a p => if pred (trim p) then some (trim p) else a) acc =
      ((ps.map trim).reverse.find? pred).or acc := by
  induction ps generalizing acc with
  | nil => rfl
  | cons p rest ih =>
    rw [List.foldl_cons, ih, List.map_cons, List.reverse_cons, List.find?_append]
    cases hfind : (rest.map trim).reverse.find? pred with
    | some x => rfl
    | none =>
      cases hp : pred (trim p) <;>
        simp [List.find?_cons, hp, Option.or]

/-- C2 (amended): for every markup document (given as its paragraph texts in
document order) and group label, `extractGroupText` returns the trimmed text
of the LAST paragraph whose trimmed text begins with `"Група {group}."`, and
`none` when the markup is empty (no paragraphs) or no paragraph matches. -/
theorem extractGroupText_lastMatch (paragraphs : List String) (group : String) :
    extractGroupText paragraphs group =
      (paragraphs.map trim).reverse.find?
        (fun t => startsWith t ("Група " ++ group ++ ".")) := by
  have h := foldl_lastMatch (fun t => startsWith t ("Група " ++ group ++ "."))
    paragraphs none
  rw [Option.or_none] at h
  exact h

-- scratch sanity checks against the repository's own test expectations
example :
    parseOutageTimes "Група 1.2. Електроенергії немає з 08:00 до 12:00, з 16:00 до 20:00." =
      ["08:00 до 12:00", "16:00 до 20:00"] := by decide

example :
    parseOutageTimes "Група 1.2. Електроенергія є протягом всього дня." = [] := by decide

example :
    containsSub "Група 1.2. Електроенергія є протягом всього дня." allDayMarker = true := by
  decide

example : formatGroupEmoji "1.2" = "1️⃣.2️⃣" := by decide

example :
    buildScheduleContent "Група 1.2. Електроенергії немає з 00:00 до 01:30." none "1.2" =
      "⏱️ 00:00 до 01:30\n\n1️⃣.2️⃣" := by decide

/-- C7: the fingerprint is a deterministic function of the parsed outage
list and all-day-marker presence of today's text (plus the tomorrow text and
group label): two today texts with identical parses and marker status — in
particular texts differing only in an "as of" retrieval-timestamp substring
outside the outage list — give identical fingerprints. -/
theorem fingerprintStability (t1 t2 : String) (tmr : Option String) (g : String)
    (hp : parseOutageTimes t1 = parseOutageTimes t2)
    (hm : containsSub t1 allDayMarker = containsSub t2 allDayMarker) :
    buildScheduleContent t1 tmr g = buildScheduleContent t2 tmr g := by
  unfold buildScheduleContent
  rw [hp, hm]

/-- Witness for C7: two fetches of the same schedule differing only in the
"as of" clock. -/
theorem fingerprintStability_witness :
    buildScheduleContent
        "Інформація станом на 10:00. Група 1.2. Електроенергії немає з 05:30 до 12:30."
        (some "Група 1.2. Електроенергії немає з 05:00 до 09:00.") "1.2" =
      buildScheduleContent
        "Інформація станом на 11:30. Група 1.2. Електроенергії немає з 05:30 до 12:30."
        (some "Група 1.2. Електроенергії немає з 05:00 до 09:00.") "1.2" :=
  fingerprintStability
    "Інформація станом на 10:00. Група 1.2. Електроенергії немає з 05:30 до 12:30."
    "Інформація станом на 11:30. Група 1.2. Електроенергії немає з 05:30 до 12:30."
    (some "Група 1.2. Електроенергії немає з 05:00 до 09:00.") "1.2"
    (by decide) (by decide)

/-- C8 counterexample: two sensitivity failures — (i) adding a tomorrow
schedule text that yields no outage times and no all-day marker leaves the
fingerprint unchanged, and (ii) changing the all-day-marker presence of a
today text whose outage list is non-empty leaves the fingerprint
unchanged. -/
theorem fingerprintSensitivity_cex :
    buildScheduleContent "Група 1.2. Електроенергії немає з 05:30 до 12:30."
        (some "дані відсутні") "1.2" =
      buildScheduleContent "Група 1.2. Електроенергії немає з 05:30 до 12:30."
        none "1.2" ∧
    buildScheduleContent
        "Електроенергія є. Група 1.2. Електроенергії немає з 05:30 до 12:30."
        none "1.2" =
      buildScheduleContent "Група 1.2. Електроенергії немає з 05:30 до 12:30."
        none "1.2" ∧
    containsSub "Електроенергія є. Група 1.2. Електроенергії немає з 05:30 до 12:30."
        allDayMarker = true ∧
    containsSub "Група 1.2. Електроенергії немає з 05:30 до 12:30."
        allDayMarker = false ∧
    parseOutageTimes "дані відсутні" = [] := by decide

theorem timeLines_data (ts : List String) :
    (timeLines ts).data = lineFlat (ts.map lineify) := by
  induction ts with
  | nil => rfl
  | cons t rest ih =>
    show ("⏱️ " ++ t ++ "\n" ++ timeLines rest).data = _
    simp only [String.data_append, ih]
    simp [lineFlat, lineify]

theorem mem_splitOnChar {sep c : Char} {p l : List Char}
    (hp : p ∈ splitOnChar sep l) (hc : c ∈ p) : c ∈ l := by
  induction l generalizing p with
  | nil =>
    simp only [splitOnChar, List.mem_singleton] at hp
    subst hp
    simp at hc
  | cons a rest ih =>
    unfold splitOnChar at hp
    split_ifs at hp with ha
    · rcases List.mem_cons.mp hp with h | h
      · subst h; simp at hc
      · exact List.mem_cons_of_mem _ (ih h hc)
    · cases hsp : splitOnChar sep rest with
      | nil =>
        rw [hsp] at hp
        simp only [List.mem_singleton] at hp
        subst hp
        rcases List.mem_cons.mp hc with h' | h'
        · exact h' ▸ List.mem_cons_self ..
        · simp at h'
      | cons q qs =>
        rw [hsp] at hp
        rcases List.mem_cons.mp hp with h | h
        · subst h
          rcases List.mem_cons.mp hc with h' | h'
          · exact h' ▸ List.mem_cons_self ..
          · exact List.mem_cons_of_mem _ (ih (hsp ▸ List.mem_cons_self ..) h')
        · exact List.mem_cons_of_mem _ (ih (hsp ▸ List.mem_cons_of_mem _ h) hc)

theorem mem_removeZ {c : Char} {l : List Char} (h : c ∈ removeZ l) : c ∈ l := by
  induction l with
  | nil => simp [removeZ] at h
  | cons a rest ih =>
    unfold removeZ at h
    split_ifs at h with ha
    · exact List.mem_cons_of_mem _ ((List.dropWhile_sublist _).mem h)
    · rcases List.mem_cons.mp h with h' | h'
      · exact h' ▸ List.mem_cons_self ..
      · exact List.mem_cons_of_mem _ (ih h')

theorem mem_stripDot {c : Char} {l : List Char} (h : c ∈ stripDot l) : c ∈ l := by
  unfold stripDot at h
  split_ifs at h
  · exact (List.dropLast_sublist _).mem h
  · exact h

theorem mem_trimChars {c : Char} {l : List Char} (h : c ∈ trimChars l) : c ∈ l := by
  unfold trimChars at h
  have h1 := List.mem_reverse.mp h
  have h2 := (List.dropWhile_sublist _).mem h1
  have h3 := List.mem_reverse.mp h2
  exact (List.dropWhile_sublist _).mem h3

theorem findTimesStr_noLineTerm {l ts : List Char} (h : findTimesStr l = some ts) :
    ∀ c ∈ ts, isLineTerm c = false := by
  induction l with
  | nil => simp [findTimesStr] at h
  | cons a rest ih =>
    unfold findTimesStr at h
    split_ifs at h with hp
    · simp only [Option.some.injEq] at h
      subst h
      intro c hc
      have := List.mem_takeWhile_imp hc
      simpa using this
    · exact ih h

theorem parseOutageTimes_pieces {t s : String} (hs : s ∈ parseOutageTimes t) :
    s.data ≠ [] ∧ ('\n' : Char) ∉ s.data := by
  unfold parseOutageTimes at hs
  cases hf : findTimesStr t.data with
  | none => rw [hf] at hs; simp at hs
  | some ts =>
    rw [hf] at hs
    obtain ⟨l, hl, rfl⟩ := List.mem_map.mp hs
    obtain ⟨hl1, hl2⟩ := List.mem_filter.mp hl
    obtain ⟨p, hpmem, hpeq⟩ := List.mem_map.mp hl1
    constructor
    · intro hnil
      rw [show (String.mk l).data = l from rfl] at hnil
      subst hnil
      simp at hl2
    · intro hmem
      rw [show (String.mk l).data = l from rfl] at hmem
      rw [← hpeq] at hmem
      have h1 := mem_trimChars hmem
      have h2 := mem_stripDot h1
      have h3 := mem_removeZ h2
      have h4 := mem_splitOnChar hpmem h3
      have := findTimesStr_noLineTerm hf _ h4
      simp [isLineTerm] at this

theorem nlfree_split {a b u v : List Char}
    (ha : ('\n' : Char) ∉ a) (hb : ('\n' : Char) ∉ b)
    (h : a ++ '\n' :: u = b ++ '\n' :: v) : a = b ∧ u = v := by
  induction a generalizing b with
  | nil =>
    cases b with
    | nil => simpa using h
    | cons d ds =>
      rw [List.nil_append, List.cons_append] at h
      obtain ⟨h1, h2⟩ := List.cons.inj h
      exact absurd (by rw [← h1]; exact List.mem_cons_self ..) hb
  | cons c cs ih =>
    cases b with
    | nil =>
      rw [List.cons_append, List.nil_append] at h
      obtain ⟨h1, h2⟩ := List.cons.inj h
      exact absurd (by rw [h1]; exact List.mem_cons_self ..) ha
    | cons d ds =>
      rw [List.cons_append, List.cons_append] at h
      obtain ⟨h1, h2⟩ := List.cons.inj h
      have hac : ('\n' : Char) ∉ cs := fun hm => ha (List.mem_cons_of_mem _ hm)
      have hbd : ('\n' : Char) ∉ ds := fun hm => hb (List.mem_cons_of_mem _ hm)
      obtain ⟨hl, hr⟩ := ih hac hbd h2
      exact ⟨by rw [h1, hl], hr⟩

theorem lineFlat_split {L1 L2 : List (List Char)} {r1 r2 : List Char}
    (h1 : ∀ l ∈ L1, l ≠ [] ∧ ('\n' : Char) ∉ l)
    (h2 : ∀ l ∈ L2, l ≠ [] ∧ ('\n' : Char) ∉ l)
    (h : lineFlat L1 ++ '\n' :: r1 = lineFlat L2 ++ '\n' :: r2) :
    L1 = L2 ∧ r1 = r2 := by
  induction L1 generalizing L2 with
  | nil =>
    cases L2 with
    | nil => simpa using h
    | cons m ms =>
      exfalso
      obtain ⟨hne, hnl⟩ := h2 m (List.mem_cons_self ..)
      cases m with
      | nil => exact hne rfl
      | cons d ds =>
        simp only [lineFlat, List.nil_append, List.cons_append, List.append_assoc] at h
        obtain ⟨h1', _⟩ := List.cons.inj h
        exact hnl (by rw [← h1']; exact List.mem_cons_self ..)
  | cons l ls ih =>
    cases L2 with
    | nil =>
      exfalso
      obtain ⟨hne, hnl⟩ := h1 l (List.mem_cons_self ..)
      cases l with
      | nil => exact hne rfl
      | cons d ds =>
        simp only [lineFlat, List.nil_append, List.cons_append, List.append_assoc] at h
        obtain ⟨h1', _⟩ := List.cons.inj h
        exact hnl (by rw [h1']; exact List.mem_cons_self ..)
    | cons m ms =>
      obtain ⟨hne1, hnl1⟩ := h1 l (List.mem_cons_self ..)
      obtain ⟨hne2, hnl2⟩ := h2 m (List.mem_cons_self ..)
      simp only [lineFlat, List.append_assoc, List.cons_append] at h
      obtain ⟨hl, hrest⟩ := nlfree_split hnl1 hnl2 h
      obtain ⟨hls, hr⟩ := ih (fun x hx => h1 x (List.mem_cons_of_mem _ hx))
        (fun x hx => h2 x (List.mem_cons_of_mem _ hx)) hrest
      exact ⟨by rw [hl, hls], hr⟩

theorem content_data (t : String) (tm : Option String) (g : String) :
    (buildScheduleContent t tm g).data =
      lineFlat (todayLinesOf t g) ++ '\n' :: restOf tm g := by
  unfold buildScheduleContent todayLinesOf restOf tomorrowTimes tomorrowMarker emojiChars
  cases tm with
  | none =>
    split_ifs <;>
      simp_all [String.data_append, timeLines_data, lineFlat, unavailLine,
        markerLine, hdrChars, tmrMarkerLine, List.append_assoc]
  | some tg =>
    by_cases htg : tg = ""
    · subst htg
      simp only [eq_self_iff_true, if_true]
      split_ifs <;>
        simp_all [String.data_append, timeLines_data, lineFlat, unavailLine,
          markerLine, hdrChars, tmrMarkerLine, List.append_assoc]
    · simp only [if_neg htg]
      split_ifs <;>
        simp_all [String.data_append, timeLines_data, lineFlat, unavailLine,
          markerLine, hdrChars, tmrMarkerLine, List.append_assoc]

theorem lineify_inj : ∀ {P1 P2 : List String}, P1.map lineify = P2.map lineify → P1 = P2 := by
  intro P1
  induction P1 with
  | nil =>
    intro P2 h
    cases P2 with
    | nil => rfl
    | cons q qs => simp at h
  | cons p ps ih =>
    intro P2 h
    cases P2 with
    | nil => simp at h
    | cons q qs =>
      simp only [List.map_cons, List.cons.injEq] at h
      obtain ⟨h1, h2⟩ := h
      unfold lineify at h1
      injection h1 with e1 r1
      injection r1 with e2 r2
      injection r2 with e3 r3
      rw [String.ext r3, ih h2]

theorem lineify_lines {P : List String}
    (hp : ∀ s ∈ P, ('\n' : Char) ∉ s.data) :
    ∀ l ∈ P.map lineify, l ≠ [] ∧ ('\n' : Char) ∉ l := by
  intro l hl
  obtain ⟨s, hs, rfl⟩ := List.mem_map.mp hl
  refine ⟨by simp [lineify], ?_⟩
  intro hmem
  simp only [lineify, List.mem_cons] at hmem
  rcases hmem with h | h | h | h
  · exact absurd h (by decide)
  · exact absurd h (by decide)
  · exact absurd h (by decide)
  · exact hp s hs h

theorem mem_joinDots {c : Char} :
    ∀ {L : List String}, c ∈ (joinDots L).data → c = '.' ∨ ∃ s ∈ L, c ∈ s.data := by
  intro L
  induction L with
  | nil => intro h; simp [joinDots] at h
  | cons s rest ih =>
    intro h
    cases rest with
    | nil =>
      right
      exact ⟨s, List.mem_cons_self .., by simpa [joinDots] using h⟩
    | cons s2 rest2 =>
      rw [show joinDots (s :: s2 :: rest2) = s ++ "." ++ joinDots (s2 :: rest2) from rfl,
        String.data_append, String.data_append] at h
      rcases List.mem_append.mp h with h' | h'
      · rcases List.mem_append.mp h' with h'' | h''
        · exact Or.inr ⟨s, List.mem_cons_self .., h''⟩
        · rw [show ("." : String).data = ['.'] from rfl] at h''
          rcases List.mem_cons.mp h'' with h3 | h3
          · exact Or.inl h3
          · simp at h3
      · rcases ih h' with h'' | ⟨x, hx, hcx⟩
        · exact Or.inl h''
        · exact Or.inr ⟨x, List.mem_cons_of_mem _ hx, hcx⟩

theorem mem_numberToEmoji {c : Char} {s : String}
    (h : c ∈ (numberToEmoji s).data) : c ∈ s.data ∨ c = '️' ∨ c = '⃣' := by
  unfold numberToEmoji at h
  rw [show (String.mk (s.data.map digitEmoji).flatten).data =
    (s.data.map digitEmoji).flatten from rfl] at h
  obtain ⟨l, hl, hcl⟩ := List.mem_flatten.mp h
  obtain ⟨d, hd, rfl⟩ := List.mem_map.mp hl
  unfold digitEmoji at hcl
  split_ifs at hcl
  · rcases List.mem_cons.mp hcl with h' | h'
    · exact Or.inl (by rw [h']; exact hd)
    · rcases List.mem_cons.mp h' with h'' | h''
      · exact Or.inr (Or.inl h'')
      · rcases List.mem_cons.mp h'' with h3 | h3
        · exact Or.inr (Or.inr h3)
        · simp at h3
  · rcases List.mem_cons.mp hcl with h' | h'
    · exact Or.inl (by rw [h']; exact hd)
    · simp at h'

theorem emojiChars_noNl {g : String} (hg : ('\n' : Char) ∉ g.data) :
    ('\n' : Char) ∉ emojiChars g := by
  intro h
  unfold emojiChars formatGroupEmoji at h
  rcases mem_joinDots h with h' | ⟨s, hs, hcs⟩
  · exact absurd h' (by decide)
  · obtain ⟨l, hl, rfl⟩ := List.mem_map.mp hs
    rcases mem_numberToEmoji hcs with h'' | h'' | h''
    · rw [show (String.mk l).data = l from rfl] at h''
      exact hg (mem_splitOnChar hl h'')
    · exact absurd h'' (by decide)
    · exact absurd h'' (by decide)

theorem todayLinesOf_wf (t g : String) (hg : ('\n' : Char) ∉ g.data) :
    ∀ l ∈ todayLinesOf t g, l ≠ [] ∧ ('\n' : Char) ∉ l := by
  unfold todayLinesOf
  split_ifs with c1 m1
  · exact lineify_lines (fun s hs => (parseOutageTimes_pieces hs).2)
  · intro l hl
    rw [List.mem_singleton] at hl
    subst hl
    exact ⟨by decide, by decide⟩
  · intro l hl
    rw [List.mem_singleton] at hl
    subst hl
    refine ⟨by simp [unavailLine], ?_⟩
    intro hmem
    unfold unavailLine at hmem
    rcases List.mem_cons.mp hmem with h' | h'
    · exact absurd h' (by decide)
    · rcases List.mem_append.mp h' with h'' | h''
      · exact hg h''
      · exact absurd h'' (by decide)

theorem tomorrowTimes_pieces {tm : Option String} {s : String}
    (hs : s ∈ tomorrowTimes tm) : s.data ≠ [] ∧ ('\n' : Char) ∉ s.data := by
  cases tm with
  | none => simp [tomorrowTimes] at hs
  | some tg =>
    rw [show tomorrowTimes (some tg) =
      if tg = "" then [] else parseOutageTimes tg from rfl] at hs
    split_ifs at hs
    · simp at hs
    · exact parseOutageTimes_pieces hs

theorem todayLines_eq {t1 t2 g : String}
    (hL : todayLinesOf t1 g = todayLinesOf t2 g) :
    parseOutageTimes t1 = parseOutageTimes t2 ∧
    (parseOutageTimes t1 = [] →
      containsSub t1 allDayMarker = containsSub t2 allDayMarker) := by
  unfold todayLinesOf at hL
  split_ifs at hL with c1 c2 m2 m1 c2a m2a c2b m2b
  · constructor
    · exact lineify_inj hL
    · intro hnil
      rw [hnil] at c1
      simp at c1
  · exfalso
    cases hP : parseOutageTimes t1 with
    | nil => rw [hP] at c1; simp at c1
    | cons p P =>
      rw [hP, List.map_cons] at hL
      obtain ⟨he, -⟩ := List.cons.inj hL
      have h2 := congrArg List.head? he
      rw [show (lineify p).head? = some '⏱' from rfl] at h2
      exact absurd h2 (by decide)
  · exfalso
    cases hP : parseOutageTimes t1 with
    | nil => rw [hP] at c1; simp at c1
    | cons p P =>
      rw [hP, List.map_cons] at hL
      obtain ⟨he, -⟩ := List.cons.inj hL
      have h2 := congrArg List.head? he
      rw [show (lineify p).head? = some '⏱' from rfl,
        show (unavailLine g).head? = some '*' from rfl] at h2
      exact absurd h2 (by decide)
  · exfalso
    cases hP : parseOutageTimes t2 with
    | nil => rw [hP] at c2a; simp at c2a
    | cons p P =>
      rw [hP, List.map_cons] at hL
      obtain ⟨he, -⟩ := List.cons.inj hL
      have h2 := congrArg List.head? he
      rw [show (lineify p).head? = some '⏱' from rfl] at h2
      exact absurd h2.symm (by decide)
  · constructor
    · have e1 : parseOutageTimes t1 = [] := List.eq_nil_of_length_eq_zero (by omega)
      have e2 : parseOutageTimes t2 = [] := List.eq_nil_of_length_eq_zero (by omega)
      rw [e1, e2]
    · intro _
      rw [m1, m2a]
  · exfalso
    obtain ⟨he, -⟩ := List.cons.inj hL
    have h2 := congrArg List.head? he
    rw [show (unavailLine g).head? = some '*' from rfl] at h2
    exact absurd h2 (by decide)
  · exfalso
    cases hP : parseOutageTimes t2 with
    | nil => rw [hP] at c2b; simp at c2b
    | cons p P =>
      rw [hP, List.map_cons] at hL
      obtain ⟨he, -⟩ := List.cons.inj hL
      have h2 := congrArg List.head? he
      rw [show (lineify p).head? = some '⏱' from rfl,
        show (unavailLine g).head? = some '*' from rfl] at h2
      exact absurd h2.symm (by decide)
  · exfalso
    obtain ⟨he, -⟩ := List.cons.inj hL
    have h2 := congrArg List.head? he
    rw [show (unavailLine g).head? = some '*' from rfl] at h2
    exact absurd h2.symm (by decide)
  · constructor
    · have e1 : parseOutageTimes t1 = [] := List.eq_nil_of_length_eq_zero (by omega)
      have e2 : parseOutageTimes t2 = [] := List.eq_nil_of_length_eq_zero (by omega)
      rw [e1, e2]
    · intro _
      simp only [Bool.not_eq_true] at m1 m2b
      rw [m1, m2b]

theorem restOf_eq {tm1 tm2 : Option String} {g : String}
    (hg : ('\n' : Char) ∉ g.data)
    (hr : restOf tm1 g = restOf tm2 g) :
    tomorrowTimes tm1 = tomorrowTimes tm2 ∧
    (tomorrowTimes tm1 = [] → tomorrowMarker tm1 = tomorrowMarker tm2) := by
  have hE := emojiChars_noNl hg
  have hmk : tmrMarkerLine ++ '\n' :: '\n' :: emojiChars g =
      hdrChars ++ ' ' :: ("✅ Електроенергія є весь день".data ++
        '\n' :: '\n' :: emojiChars g) := by
    rw [show tmrMarkerLine =
      hdrChars ++ ' ' :: "✅ Електроенергія є весь день".data from rfl,
      List.append_assoc, List.cons_append]
  unfold restOf at hr
  split_ifs at hr with c1 c2 m2 m1 c2a m2a c2b m2b
  · constructor
    · have h1 := List.cons.inj (List.append_cancel_left hr)
      obtain ⟨hls, -⟩ := lineFlat_split
        (lineify_lines fun s hs => (tomorrowTimes_pieces hs).2)
        (lineify_lines fun s hs => (tomorrowTimes_pieces hs).2) h1.2
      exact lineify_inj hls
    · intro hnil
      rw [hnil] at c1
      simp at c1
  · exfalso
    rw [hmk] at hr
    have h1 := List.cons.inj (List.append_cancel_left hr)
    exact absurd h1.1 (by decide)
  · exfalso
    have hmem : ('\n' : Char) ∈ hdrChars ++ '\n' ::
        (lineFlat ((tomorrowTimes tm1).map lineify) ++ '\n' :: emojiChars g) :=
      List.mem_append.mpr (Or.inr (List.mem_cons_self ..))
    rw [hr] at hmem
    exact hE hmem
  · exfalso
    rw [hmk] at hr
    have h1 := List.cons.inj (List.append_cancel_left hr.symm)
    exact absurd h1.1 (by decide)
  · constructor
    · have e1 : tomorrowTimes tm1 = [] := List.eq_nil_of_length_eq_zero (by omega)
      have e2 : tomorrowTimes tm2 = [] := List.eq_nil_of_length_eq_zero (by omega)
      rw [e1, e2]
    · intro _
      rw [m1, m2a]
  · exfalso
    have hmem : ('\n' : Char) ∈ tmrMarkerLine ++ '\n' :: '\n' :: emojiChars g :=
      List.mem_append.mpr (Or.inr (List.mem_cons_self ..))
    rw [hr] at hmem
    exact hE hmem
  · exfalso
    have hmem : ('\n' : Char) ∈ hdrChars ++ '\n' ::
        (lineFlat ((tomorrowTimes tm2).map lineify) ++ '\n' :: emojiChars g) :=
      List.mem_append.mpr (Or.inr (List.mem_cons_self ..))
    rw [← hr] at hmem
    exact hE hmem
  · exfalso
    have hmem : ('\n' : Char) ∈ tmrMarkerLine ++ '\n' :: '\n' :: emojiChars g :=
      List.mem_append.mpr (Or.inr (List.mem_cons_self ..))
    rw [← hr] at hmem
    exact hE hmem
  · constructor
    · have e1 : tomorrowTimes tm1 = [] := List.eq_nil_of_length_eq_zero (by omega)
      have e2 : tomorrowTimes tm2 = [] := List.eq_nil_of_length_eq_zero (by omega)
      rw [e1, e2]
    · intro _
      simp only [Bool.not_eq_true] at m1 m2b
      rw [m1, m2b]

/-- C8 (amended): equal fingerprints force equal schedule semantics — for
any group label without newline characters, if two fingerprint calls agree
then today's parsed outage lists agree, today's all-day-marker presence
agrees whenever today's outage list is empty, the tomorrow outage lists
agree (an absent, empty, or unparseable tomorrow text contributing none),
and the effective tomorrow marker presence agrees whenever tomorrow's
outage list is empty.  Contrapositive: changing any outage start or end
time in today's or tomorrow's text changes the fingerprint; adding or
removing a tomorrow schedule changes it provided that schedule yields an
outage time or contains the all-day marker; changing the all-day-marker
presence changes it provided the affected day's outage list is empty. -/
theorem fingerprintSensitivity (t1 t2 : String) (tm1 tm2 : Option String)
    (g : String) (hg : ('\n' : Char) ∉ g.data)
    (h : buildScheduleContent t1 tm1 g = buildScheduleContent t2 tm2 g) :
    parseOutageTimes t1 = parseOutageTimes t2 ∧
    (parseOutageTimes t1 = [] →
      containsSub t1 allDayMarker = containsSub t2 allDayMarker) ∧
    tomorrowTimes tm1 = tomorrowTimes tm2 ∧
    (tomorrowTimes tm1 = [] → tomorrowMarker tm1 = tomorrowMarker tm2) := by
  have hd := congrArg String.data h
  rw [content_data, content_data] at hd
  obtain ⟨hL, hr⟩ := lineFlat_split (todayLinesOf_wf t1 g hg)
    (todayLinesOf_wf t2 g hg) hd
  obtain ⟨hc1, hc2⟩ := todayLines_eq hL
  obtain ⟨hc3, hc4⟩ := restOf_eq hg hr
  exact ⟨hc1, hc2, hc3, hc4⟩

/-- Witness for C8: two today texts differing only in an "as of" timestamp
have equal fingerprints, and the theorem recovers equal outage lists and
marker data from that equality. -/
theorem fingerprintSensitivity_witness :
    parseOutageTimes "Станом на 09:10. Група 1.2. Електроенергії немає з 16:00 до 21:00." =
      parseOutageTimes "Станом на 09:40. Група 1.2. Електроенергії немає з 16:00 до 21:00." ∧
    (parseOutageTimes "Станом на 09:10. Група 1.2. Електроенергії немає з 16:00 до 21:00." = [] →
      containsSub "Станом на 09:10. Група 1.2. Електроенергії немає з 16:00 до 21:00." allDayMarker =
        containsSub "Станом на 09:40. Група 1.2. Електроенергії немає з 16:00 до 21:00." allDayMarker) ∧
    tomorrowTimes none = tomorrowTimes none ∧
    (tomorrowTimes none = [] → tomorrowMarker none = tomorrowMarker none) :=
  fingerprintSensitivity
    "Станом на 09:10. Група 1.2. Електроенергії немає з 16:00 до 21:00."
    "Станом на 09:40. Група 1.2. Електроенергії немає з 16:00 до 21:00."
    none none "1.2" (by decide) (by decide)

end LybohoraBot
